import Mathlib

/-!
Verification of the clip.cafe batch scraper/downloader (`script.py`).

Python strings are modelled as `List Char`, machine integers as `Int`/`Nat`,
the filesystem stores as explicit values threaded through the functions, and
fallible operations as `Option`/`Except`.  Every definition is translated from
the source; the handful of spec-side definitions used to state refinement
claims are clearly marked as such.
-/

namespace MovieDataset

/-! ### Characters and Python `int(...)` parsing

`int(s)` in Python strips surrounding whitespace, accepts an optional sign and
a non-empty run of decimal digits, and raises `ValueError` otherwise (modelled
as `none`).  Underscore digit separators and non-ASCII decimal digits are not
exercised by this code base and are not modelled.
-/

/-- Whitespace stripped by Python's `str.strip` / `int(...)`. -/
def isPySpace (c : Char) : Bool :=
  c.toNat = 32 || c.toNat = 9 || c.toNat = 10 || c.toNat = 13 ||
  c.toNat = 11 || c.toNat = 12

/-- ASCII decimal digit. -/
def myDigit (c : Char) : Bool :=
  48 ≤ c.toNat && c.toNat ≤ 57

/-- Value of a digit string read most-significant first. -/
def digitsVal (cs : List Char) : Nat :=
  cs.foldl (fun a c => 10 * a + (c.toNat - 48)) 0

/-- The ASCII character of one decimal digit. -/
def digitChar (d : Nat) : Char := Char.ofNat (48 + d)

/-- Decimal digits of `n`, most significant first (fuel-based so that it
evaluates by kernel reduction). -/
def natDigitsAux : Nat → Nat → List Char
  | 0, _ => []
  | fuel + 1, n =>
    if n < 10 then [digitChar n]
    else natDigitsAux fuel (n / 10) ++ [digitChar (n % 10)]

/-- Decimal representation of a natural number, as Python's `str` produces. -/
def natDigits (n : Nat) : List Char := natDigitsAux (n + 1) n

/-- Python's `str(i)` for an integer. -/
def intRepr (i : Int) : List Char :=
  if i < 0 then '-' :: natDigits i.natAbs else natDigits i.toNat

/-- `str.strip()`: drop Python whitespace from both ends. -/
def pyStrip (cs : List Char) : List Char :=
  ((cs.dropWhile isPySpace).reverse.dropWhile isPySpace).reverse

/-- Core of `int(s)`: optional sign, then a non-empty run of digits. -/
def pyIntCore : List Char → Option Int
  | [] => none
  | c :: ds =>
    if c = '+' then
      if ds ≠ [] ∧ ds.all myDigit then some ((digitsVal ds : Nat) : Int) else none
    else if c = '-' then
      if ds ≠ [] ∧ ds.all myDigit then some (-((digitsVal ds : Nat) : Int)) else none
    else if (c :: ds).all myDigit then some ((digitsVal (c :: ds) : Nat) : Int)
    else none

/-- Python's `int(s)` on a string: `some` value, or `none` for `ValueError`. -/
def pyIntChars? (cs : List Char) : Option Int := pyIntCore (pyStrip cs)

/-! ### Filenames

`handle_clip` names the relocated clip `f"{idx:02d}.wav"`; the allocator scans
`Lines/*.wav` and parses `p.stem` with `int`. -/

/-- The `.wav` suffix. -/
def wavExt : List Char := ['.', 'w', 'a', 'v']

/-- Whether a filename is matched by the glob `*.wav` (the leading `*` does
not match an empty name component, so at least one character precedes the
suffix). -/
def isWavName (cs : List Char) : Bool :=
  decide (4 < cs.length) && decide (cs.drop (cs.length - 4) = wavExt)

/-- `pathlib.Path.stem` for a name ending in `.wav`. -/
def stemOfWav (cs : List Char) : List Char := cs.take (cs.length - 4)

/-- Python's `f"{i:02d}"`: zero-pad the decimal form to width two (the sign
of a negative number already occupies one column). -/
def format02Int (i : Int) : List Char :=
  let s := intRepr i
  if s.length < 2 then '0' :: s else s

/-- The filename `handle_clip` writes for id `i`: `f"{i:02d}.wav"`. -/
def wavName (i : Int) : List Char := format02Int i ++ wavExt

/-! ### Digit lemmas -/

theorem digitsVal_append_single (cs : List Char) (c : Char) :
    digitsVal (cs ++ [c]) = 10 * digitsVal cs + (c.toNat - 48) := by
  simp [digitsVal, List.foldl_append]

theorem digitChar_toNat {d : Nat} (hd : d < 10) : (digitChar d).toNat = 48 + d := by
  interval_cases d <;> decide

theorem myDigit_digitChar {d : Nat} (hd : d < 10) : myDigit (digitChar d) = true := by
  interval_cases d <;> decide

theorem natDigitsAux_succ (fuel n : Nat) :
    natDigitsAux (fuel + 1) n =
      if n < 10 then [digitChar n]
      else natDigitsAux fuel (n / 10) ++ [digitChar (n % 10)] := rfl

theorem digitsVal_single (c : Char) : digitsVal [c] = c.toNat - 48 := by
  simp [digitsVal]

theorem natDigitsAux_spec :
    ∀ fuel n, n < 10 ^ (fuel + 1) →
      digitsVal (natDigitsAux (fuel + 1) n) = n ∧
      natDigitsAux (fuel + 1) n ≠ [] ∧
      (natDigitsAux (fuel + 1) n).all myDigit = true := by
  intro fuel
  induction fuel with
  | zero =>
    intro n hn
    have h10 : n < 10 := by simpa using hn
    rw [natDigitsAux_succ, if_pos h10]
    refine ⟨?_, by simp, by simp [myDigit_digitChar h10]⟩
    rw [digitsVal_single, digitChar_toNat h10]
    omega
  | succ f ih =>
    intro n hn
    by_cases h10 : n < 10
    · rw [natDigitsAux_succ, if_pos h10]
      refine ⟨?_, by simp, by simp [myDigit_digitChar h10]⟩
      rw [digitsVal_single, digitChar_toNat h10]
      omega
    · have hdiv : n / 10 < 10 ^ (f + 1) := by
        have hlt : n < 10 ^ (f + 1) * 10 := by
          calc n < 10 ^ (f + 2) := hn
          _ = 10 ^ (f + 1) * 10 := by ring
        omega
      obtain ⟨hval, hne, hall⟩ := ih (n / 10) hdiv
      have hmod : n % 10 < 10 := Nat.mod_lt _ (by omega)
      rw [natDigitsAux_succ, if_neg h10]
      refine ⟨?_, by simp, ?_⟩
      · rw [digitsVal_append_single, hval, digitChar_toNat hmod]
        omega
      · simp only [List.all_append, hall, Bool.true_and]
        simp [myDigit_digitChar hmod]

theorem lt_ten_pow_succ (n : Nat) : n < 10 ^ (n + 1) :=
  lt_of_lt_of_le (Nat.lt_pow_self (by omega) n)
    (Nat.pow_le_pow_right (by omega) (by omega))

theorem natDigits_spec (n : Nat) :
    digitsVal (natDigits n) = n ∧ natDigits n ≠ [] ∧
    (natDigits n).all myDigit = true :=
  natDigitsAux_spec n n (lt_ten_pow_succ n)

/-! ### `int(...)` round-trips for the strings the orchestrator writes -/

theorem isPySpace_eq_false_of_myDigit {c : Char} (h : myDigit c = true) :
    isPySpace c = false := by
  simp only [myDigit, Bool.and_eq_true, decide_eq_true_eq] at h
  simp only [isPySpace, Bool.or_eq_false_iff, decide_eq_false_iff_not]
  omega

theorem myDigit_ne_plus {c : Char} (h : myDigit c = true) : ¬ c = '+' := by
  intro he; subst he; exact absurd h (by decide)

theorem myDigit_ne_minus {c : Char} (h : myDigit c = true) : ¬ c = '-' := by
  intro he; subst he; exact absurd h (by decide)

theorem dropWhile_eq_self_of_no_sat {p : Char → Bool} {cs : List Char}
    (h : ∀ c ∈ cs, p c = false) : cs.dropWhile p = cs := by
  cases cs with
  | nil => rfl
  | cons c rest => simp [List.dropWhile, h c (by simp)]

theorem pyStrip_of_nospace {cs : List Char}
    (h : ∀ c ∈ cs, isPySpace c = false) : pyStrip cs = cs := by
  unfold pyStrip
  rw [dropWhile_eq_self_of_no_sat h,
      dropWhile_eq_self_of_no_sat (by intro c hc; exact h c (by simpa using hc)),
      List.reverse_reverse]

theorem pyIntChars?_all_digits {cs : List Char} (hne : cs ≠ [])
    (hall : cs.all myDigit = true) :
    pyIntChars? cs = some ((digitsVal cs : Nat) : Int) := by
  have hnospace : ∀ c ∈ cs, isPySpace c = false := by
    intro c hc
    exact isPySpace_eq_false_of_myDigit (by simpa using (List.all_eq_true.mp hall c hc))
  unfold pyIntChars?
  rw [pyStrip_of_nospace hnospace]
  cases cs with
  | nil => exact absurd rfl hne
  | cons c ds =>
    have hc : myDigit c = true := by
      simpa using (List.all_eq_true.mp hall c (by simp))
    simp only [pyIntCore]
    rw [if_neg (myDigit_ne_plus hc), if_neg (myDigit_ne_minus hc), if_pos hall]

theorem pyIntChars?_natDigits (n : Nat) :
    pyIntChars? (natDigits n) = some (n : Int) := by
  obtain ⟨hval, hne, hall⟩ := natDigits_spec n
  rw [pyIntChars?_all_digits hne hall, hval]

theorem intRepr_ne_nil (i : Int) : intRepr i ≠ [] := by
  unfold intRepr
  by_cases h : i < 0
  · simp [h]
  · simp only [h, if_false]
    exact (natDigits_spec i.toNat).2.1

theorem pyIntChars?_intRepr (i : Int) : pyIntChars? (intRepr i) = some i := by
  by_cases h : i < 0
  · obtain ⟨hval, hne, hall⟩ := natDigits_spec i.natAbs
    have hnospace : ∀ c ∈ ('-' :: natDigits i.natAbs), isPySpace c = false := by
      intro c hc
      rcases List.mem_cons.mp hc with hc | hc
      · subst hc; decide
      · exact isPySpace_eq_false_of_myDigit
          (by simpa using (List.all_eq_true.mp hall c hc))
    unfold intRepr
    rw [if_pos h]
    unfold pyIntChars?
    rw [pyStrip_of_nospace hnospace]
    simp only [pyIntCore]
    rw [if_neg (by decide), if_pos (by decide), if_pos ⟨hne, hall⟩, hval]
    congr 1
    omega
  · unfold intRepr
    rw [if_neg h, pyIntChars?_natDigits]
    congr 1
    omega

theorem pyIntChars?_format02Int (i : Int) :
    pyIntChars? (format02Int i) = some i := by
  unfold format02Int
  by_cases hlen : (intRepr i).length < 2
  · rw [if_pos hlen]
    have hge : ¬ i < 0 := by
      intro hneg
      have hne := (natDigits_spec i.natAbs).2.1
      have : 1 ≤ (natDigits i.natAbs).length := List.length_pos.mpr hne
      unfold intRepr at hlen
      rw [if_pos hneg] at hlen
      simp at hlen
      omega
    obtain ⟨hval, hne, hall⟩ := natDigits_spec i.toNat
    have hall0 : ('0' :: natDigits i.toNat).all myDigit = true := by
      simp only [List.all_cons, hall, Bool.and_true]
      decide
    unfold intRepr
    rw [if_neg hge]
    rw [pyIntChars?_all_digits (by simp) hall0]
    have hzero : digitsVal ('0' :: natDigits i.toNat) = digitsVal (natDigits i.toNat) := rfl
    rw [hzero, hval]
    congr 1
    omega
  · rw [if_neg hlen]
    exact pyIntChars?_intRepr i

theorem format02Int_ne_nil (i : Int) : format02Int i ≠ [] := by
  unfold format02Int
  by_cases hlen : (intRepr i).length < 2
  · simp [hlen]
  · simpa [hlen] using intRepr_ne_nil i

theorem stemOfWav_wavName (i : Int) : stemOfWav (wavName i) = format02Int i := by
  unfold stemOfWav wavName
  have hlen : (format02Int i ++ wavExt).length - 4 = (format02Int i).length := by
    simp [wavExt]
  rw [hlen, List.take_left]

theorem isWavName_wavName (i : Int) : isWavName (wavName i) = true := by
  unfold isWavName wavName
  have h1 : 1 ≤ (format02Int i).length := List.length_pos.mpr (format02Int_ne_nil i)
  have hlen : (format02Int i ++ wavExt).length - 4 = (format02Int i).length := by
    simp [wavExt]
  rw [hlen, List.drop_left]
  simp only [List.length_append, Bool.and_eq_true, decide_eq_true_eq]
  refine ⟨?_, by simp⟩
  simp only [wavExt, List.length_cons, List.length_nil]
  omega

/-- The filename written for id `i` parses back to `i` under the allocator's
scan: `int(Path(f"{i:02d}.wav").stem) = i`. -/
theorem roundtrip_wav (i : Int) :
    pyIntChars? (stemOfWav (wavName i)) = some i := by
  rw [stemOfWav_wavName]
  exact pyIntChars?_format02Int i

/-! ### Ledger rows and store state

A ledger data row carries the five columns of `data.csv`; the `id` column is
kept as the raw field string (a row whose `id` cell is missing reads as `""`
through `row.get("id", "")`).  `St` bundles the two persistent stores:
`ledger = none` models a missing `data.csv`, `dlDir = none` a missing
`Lines/` directory. -/

structure Row where
  idField : List Char
  actor : List Char
  movie : List Char
  line : List Char
  dur : Rat
deriving DecidableEq

structure St where
  ledger : Option (List Row)
  dlDir : Option (List (List Char))
deriving DecidableEq

/-! ### Identifier allocator (`_safe_max_id_from_csv`, `_safe_max_id_from_files`,
`next_id`)

`_safe_max_id_from_csv` models the row loop of the `csv.DictReader` fallback
(lines 83–91): parse each row's `id` cell, skip on failure, keep a running
maximum.  The `pandas` fast path computes the same maximum when it succeeds
and falls through to this loop otherwise, so the loop is the observable
contract. -/

/-- `max_id = val if (max_id is None or val > max_id) else max_id`. -/
def stepMax : Option Int → Int → Option Int
  | none, v => some v
  | some m, v => if v > m then some v else some m

def safe_max_id_from_csv (rows : List Row) : Option Int :=
  rows.foldl (fun maxId r =>
    match pyIntChars? r.idField with
    | some v => stepMax maxId v
    | none => maxId) none

/-- `Lines/*.wav` scan: parse each stem, skip failures, `max(nums)` or `None`
(lines 95–105); a missing folder yields `None`. -/
def safe_max_id_from_files : Option (List (List Char)) → Option Int
  | none => none
  | some files =>
    match (files.filter isWavName).filterMap (fun f => pyIntChars? (stemOfWav f)) with
    | [] => none
    | x :: xs => some (xs.foldl max x)

/-- `next_id` (lines 107–117): if `data.csv` is absent use only the filename
maximum, otherwise `max` of the non-`None` candidates, plus one; `1` when no
candidate exists. -/
def next_id (st : St) : Int :=
  match st.ledger with
  | none =>
    match safe_max_id_from_files st.dlDir with
    | some m => m + 1
    | none => 1
  | some rows =>
    match safe_max_id_from_csv rows, safe_max_id_from_files st.dlDir with
    | none, none => 1
    | some a, none => a + 1
    | none, some b => b + 1
    | some a, some b => max a b + 1

/-! ### Spec-side views of the stores

These three definitions follow the spec's words ("the maximum identifier
observed across both the Ledger and the DownloadDirectory's filenames",
"treat unparsable rows/filenames as absent") and are compared with the code
definitions above. -/

def csvValidIds (rows : List Row) : List Int :=
  rows.filterMap (fun r => pyIntChars? r.idField)

def dirValidIds (files : List (List Char)) : List Int :=
  (files.filter isWavName).filterMap (fun f => pyIntChars? (stemOfWav f))

def observedIds (st : St) : List Int :=
  (match st.ledger with | none => [] | some rows => csvValidIds rows) ++
  (match st.dlDir with | none => [] | some fs => dirValidIds fs)

/-! ### Fold/maximum lemmas -/

theorem stepMax_some (m v : Int) : stepMax (some m) v = some (max m v) := by
  show (if v > m then some v else some m) = some (max m v)
  rcases lt_or_ge m v with h | h
  · rw [if_pos h, max_eq_right h.le]
  · rw [if_neg (not_lt.mpr h), max_eq_left h]

theorem foldl_stepMax_some (ys : List Int) :
    ∀ m : Int, ys.foldl stepMax (some m) = some (ys.foldl max m) := by
  induction ys with
  | nil => intro m; rfl
  | cons y ys ih =>
    intro m
    rw [List.foldl_cons, stepMax_some, ih, List.foldl_cons]

theorem foldl_stepMax_none (ys : List Int) :
    ys.foldl stepMax none = ys.max? := by
  cases ys with
  | nil => rfl
  | cons y ys =>
    rw [List.foldl_cons, List.max?_cons']
    exact foldl_stepMax_some ys y

theorem safe_max_id_from_csv_foldl (rows : List Row) :
    ∀ acc : Option Int,
      rows.foldl (fun maxId r =>
        match pyIntChars? r.idField with
        | some v => stepMax maxId v
        | none => maxId) acc = (csvValidIds rows).foldl stepMax acc := by
  induction rows with
  | nil => intro acc; rfl
  | cons r rows ih =>
    intro acc
    rw [List.foldl_cons]
    cases h : pyIntChars? r.idField with
    | none => simp only [csvValidIds, List.filterMap_cons, h]; exact ih acc
    | some v =>
      simp only [csvValidIds, List.filterMap_cons, h, List.foldl_cons]
      exact ih (stepMax acc v)

/-- The CSV scan computes exactly the maximum of the parseable ids. -/
theorem safe_max_id_from_csv_spec (rows : List Row) :
    safe_max_id_from_csv rows = (csvValidIds rows).max? := by
  unfold safe_max_id_from_csv
  rw [safe_max_id_from_csv_foldl rows none, foldl_stepMax_none]

/-- The filename scan computes exactly the maximum of the parseable stems. -/
theorem safe_max_id_from_files_spec (files : List (List Char)) :
    safe_max_id_from_files (some files) = (dirValidIds files).max? := by
  show (match dirValidIds files with
        | [] => none
        | x :: xs => some (xs.foldl max x)) = (dirValidIds files).max?
  cases dirValidIds files with
  | nil => rfl
  | cons x xs => rw [List.max?_cons']

theorem foldl_max_assoc (ys : List Int) :
    ∀ a b : Int, ys.foldl max (max a b) = max a (ys.foldl max b) := by
  induction ys with
  | nil => intro a b; rfl
  | cons y ys ih =>
    intro a b
    rw [List.foldl_cons, max_assoc, ih, List.foldl_cons]

/-- Merging of the two per-store maxima, as `next_id` does with its
`candidates` list. -/
def combineMax : Option Int → Option Int → Option Int
  | none, m => m
  | some a, none => some a
  | some a, some b => some (max a b)

theorem max?_append (xs ys : List Int) :
    (xs ++ ys).max? = combineMax xs.max? ys.max? := by
  cases xs with
  | nil =>
    rw [List.nil_append, List.max?_nil]
    cases ys.max? <;> rfl
  | cons x xs =>
    cases ys with
    | nil =>
      rw [List.append_nil, List.max?_nil, List.max?_cons']
      rfl
    | cons y ys =>
      rw [List.cons_append, List.max?_cons', List.max?_cons', List.max?_cons']
      show some ((xs ++ y :: ys).foldl max x) = some (max (xs.foldl max x) (ys.foldl max y))
      rw [List.foldl_append, List.foldl_cons, foldl_max_assoc ys (xs.foldl max x) y]

theorem le_foldl_max (ys : List Int) :
    ∀ a : Int, a ≤ ys.foldl max a ∧ ∀ x ∈ ys, x ≤ ys.foldl max a := by
  induction ys with
  | nil => intro a; exact ⟨le_refl a, by simp⟩
  | cons y ys ih =>
    intro a
    obtain ⟨h1, h2⟩ := ih (max a y)
    refine ⟨le_trans (le_max_left a y) h1, ?_⟩
    intro x hx
    rcases List.mem_cons.mp hx with hx | hx
    · rw [hx]
      exact le_trans (le_max_right a y) h1
    · exact h2 x hx

theorem le_max?_of_mem {ys : List Int} {x m : Int}
    (hx : x ∈ ys) (hm : ys.max? = some m) : x ≤ m := by
  cases ys with
  | nil => cases hx
  | cons y ys =>
    rw [List.max?_cons'] at hm
    obtain hm' := Option.some.inj hm
    rcases List.mem_cons.mp hx with h | h
    · subst h; rw [← hm']; exact (le_foldl_max ys x).1
    · rw [← hm']; exact (le_foldl_max ys y).2 x h

/-- Spec-side: the smallest integer strictly greater than the maximum
identifier observed across both stores (`m + 1` is the smallest integer
strictly greater than `m`); `1` when neither store contains a parseable id. -/
def specNextId (st : St) : Int :=
  match (observedIds st).max? with
  | some m => m + 1
  | none => 1

theorem next_id_eq_specNextId (st : St) : next_id st = specNextId st := by
  obtain ⟨ledger, dlDir⟩ := st
  cases ledger with
  | none =>
    cases dlDir with
    | none => rfl
    | some fs =>
      simp only [next_id, specNextId, observedIds, List.nil_append,
        safe_max_id_from_files_spec]
  | some rows =>
    cases dlDir with
    | none =>
      simp only [next_id, specNextId, observedIds, List.append_nil,
        safe_max_id_from_csv_spec]
      rcases hc : (csvValidIds rows).max? with _ | a <;> rfl
    | some fs =>
      simp only [next_id, specNextId, observedIds,
        safe_max_id_from_csv_spec, safe_max_id_from_files_spec,
        max?_append]
      rcases hc : (csvValidIds rows).max? with _ | a <;>
        rcases hf : (dirValidIds fs).max? with _ | b <;>
        simp only [combineMax]

theorem lt_next_id_of_observed {st : St} {i : Int}
    (hi : i ∈ observedIds st) : i < next_id st := by
  rw [next_id_eq_specNextId]
  unfold specNextId
  cases hmax : (observedIds st).max? with
  | none =>
    rw [List.max?_eq_none_iff] at hmax
    rw [hmax] at hi
    cases hi
  | some m =>
    have hle := le_max?_of_mem hi hmax
    show i < m + 1
    omega

/-- C2: `next_id` returns the smallest integer strictly greater than the
maximum id observed across the ledger's id column and the directory's
numeric `.wav` stems (`specNextId`), and in particular `1` when neither
store contains a parseable id; every observed id is strictly below the
returned value. -/
theorem next_id_union_reconciliation :
    ∀ st : St, next_id st = specNextId st ∧ ∀ i ∈ observedIds st, i < next_id st :=
  fun st => ⟨next_id_eq_specNextId st, fun _ hi => lt_next_id_of_observed hi⟩

/-- C2 witness: a store whose ledger holds id `7` and whose directory holds
`03.wav` allocates `8`, strictly above the observed id `7`. -/
theorem next_id_union_reconciliation_witness :
    next_id ⟨some [⟨['7'], [], [], [], 0⟩], some [['0', '3', '.', 'w', 'a', 'v']]⟩ =
      specNextId ⟨some [⟨['7'], [], [], [], 0⟩], some [['0', '3', '.', 'w', 'a', 'v']]⟩ ∧
    (7 : Int) < next_id ⟨some [⟨['7'], [], [], [], 0⟩], some [['0', '3', '.', 'w', 'a', 'v']]⟩ :=
  ⟨(next_id_union_reconciliation _).1,
   (next_id_union_reconciliation _).2 7 (by decide)⟩

/-- C8: the max-id scans skip unparsable ledger `id` cells and unparsable
filename stems, returning the maximum over the remaining valid entries
(`none` when there are none); both functions are total, so no input makes
them raise. -/
theorem malformed_entries_tolerated :
    ∀ (rows : List Row) (files : List (List Char)),
      safe_max_id_from_csv rows = (csvValidIds rows).max? ∧
      safe_max_id_from_files (some files) = (dirValidIds files).max? :=
  fun rows files =>
    ⟨safe_max_id_from_csv_spec rows, safe_max_id_from_files_spec files⟩

/-! ### Download watcher (`wait_download`, lines 162–171)

`wait_download` polls the temporary download directory once per second while
`time.time() < deadline`, where `deadline = time.time() + WAIT_SECS`.  Time is
discretised to the poll index: poll `t` observes the directory contents
`dirAt t`; after `WAIT_SECS` fruitless polls the clock reaches the deadline
and the loop raises (`none` here).  The result carries the clock value at
exit, so "after the bound, not before" is visible in the model. -/

def WAIT_SECS : Nat := 15

def wait_loop (dirAt : Nat → List (List Char)) (before : List (List Char)) :
    Nat → Nat → Option (List Char) × Nat
  | t, 0 => (none, t)
  | t, fuel + 1 =>
    let files := (dirAt t).filter isWavName
    let new := files.filter (fun f => decide (f ∉ before))
    match new with
    | [] => wait_loop dirAt before (t + 1) fuel
    | f :: _ => (some f, t)

def wait_download (dirAt : Nat → List (List Char)) (before : List (List Char)) :
    Option (List Char) × Nat :=
  wait_loop dirAt before 0 WAIT_SECS

theorem wait_loop_timeout {dirAt : Nat → List (List Char)}
    {before : List (List Char)}
    (h : ∀ t f, f ∈ dirAt t → isWavName f = true → f ∈ before) :
    ∀ fuel t, wait_loop dirAt before t fuel = (none, t + fuel) := by
  intro fuel
  induction fuel with
  | zero => intro t; rfl
  | succ k ih =>
    intro t
    have hnew : ((dirAt t).filter isWavName).filter (fun f => decide (f ∉ before)) = [] := by
      rw [List.filter_eq_nil_iff]
      intro f hf
      obtain ⟨hmem, hwav⟩ := List.mem_filter.mp hf
      simp only [decide_eq_true_eq, Decidable.not_not, decide_not, Bool.not_eq_true',
        decide_eq_false_iff_not, not_not]
      exact h t f hmem hwav
    show (match ((dirAt t).filter isWavName).filter (fun f => decide (f ∉ before)) with
          | [] => wait_loop dirAt before (t + 1) k
          | f :: _ => (some f, t)) = (none, t + (k + 1))
    rw [hnew, ih (t + 1)]
    have harith : t + 1 + k = t + (k + 1) := by omega
    rw [harith]

/-- C6: if no new matching `.wav` file ever appears beyond the snapshot, the
watcher times out (`none`, modelling the raised `RuntimeError("Download timed
out")`) with the clock at exactly `WAIT_SECS`: the failure comes after the
configured bound — not before it, and not indefinitely, the loop being
bounded by `WAIT_SECS` polls. -/
theorem wait_download_timeout (dirAt : Nat → List (List Char))
    (before : List (List Char))
    (h : ∀ t f, f ∈ dirAt t → isWavName f = true → f ∈ before) :
    wait_download dirAt before = (none, WAIT_SECS) :=
  wait_loop_timeout h WAIT_SECS 0

/-- C6 witness: a directory that stays empty times out at `WAIT_SECS`. -/
theorem wait_download_timeout_witness :
    wait_download (fun _ => []) [] = (none, WAIT_SECS) :=
  wait_download_timeout (fun _ => []) []
    (fun _ f hf _ => absurd hf (List.not_mem_nil f))

/-! ### Metadata extractor (`extract_meta`, lines 134–160)

The spec places HTML parsing selectors outside the core, so the rendered page
is abstracted into the results of the five BeautifulSoup queries the function
performs, plus the raw text the duration regex scans.  `none` stands for a
selector returning `None`; calling `.get_text` on such a result raises
`AttributeError`, modelled as `Except.error`.  The duration regex
`(\d{1,3}(?:\.\d+)?)\s*secs?` (case-insensitive, `re.search`) is implemented
with its leftmost-match and greedy/backtracking behaviour over ASCII text. -/

/-- The grey `div.movieCastActor` bar: its first `<b>` child's text and its
first `a[href*='actor/']` link text, when present. -/
structure CastBlock where
  bText : Option (List Char)
  actorLink : Option (List Char)
deriving DecidableEq

structure Markup where
  movieCastActor : Option CastBlock
  pageActorLink : Option (List Char)
  highlightBoxB : Option (List Char)
  whiteLink : Option (List Char)
  highlightBoxText : Option (List Char)
  raw : List Char
deriving DecidableEq

inductive ExtractErr
  | missingField
deriving DecidableEq

/-- The `"Unknown"` sentinel. -/
def unknownActor : List Char := ['U', 'n', 'k', 'n', 'o', 'w', 'n']

/-- Case-insensitive literal match of `pat` at the head of `cs` (from
`re.sub(rf"^\x7bre.escape(char)\x7d...", ..., flags=re.I)`); returns the
remainder on success. -/
def matchCI : List Char → List Char → Option (List Char)
  | [], rest => some rest
  | _ :: _, [] => none
  | c :: cs, d :: rest => if c.toLower = d.toLower then matchCI cs rest else none

/-- `\s*:\s*` after the speaker name. -/
def dropSpacesColon (cs : List Char) : Option (List Char) :=
  match cs.dropWhile isPySpace with
  | ':' :: r => some (r.dropWhile isPySpace)
  | _ => none

/-- `re.sub(rf"^\x7bchar\x7d\s*:\s*", "", quote_txt, flags=re.I)`: strip a
leading `speaker :` label when it matches, else leave the text unchanged. -/
def stripSpeaker (ch quoteTxt : List Char) : List Char :=
  match matchCI ch quoteTxt with
  | some rest =>
    match dropSpacesColon rest with
    | some r => r
    | none => quoteTxt
  | none => quoteTxt

/-- `\s*sec` (case-insensitive); the optional trailing `s?` cannot affect
whether a match exists. -/
def matchSecs (cs : List Char) : Bool :=
  match cs.dropWhile isPySpace with
  | s :: e :: c :: _ => s.toLower == 's' && e.toLower == 'e' && c.toLower == 'c'
  | _ => false

/-- Exactly `k` digits from the head of the input, with the remainder. -/
def takeExactDigits : Nat → List Char → Option (List Char × List Char)
  | 0, cs => some ([], cs)
  | _ + 1, [] => none
  | k + 1, c :: cs =>
    if myDigit c then
      match takeExactDigits k cs with
      | some (ds, rest) => some (c :: ds, rest)
      | none => none
    else none

/-- After the integer digits: try the greedy optional fraction `(?:\.\d+)?`
first, backtracking to no fraction, then require `\s*secs?`. -/
def matchAfterDigits (ds rest : List Char) : Option (List Char) :=
  match rest with
  | '.' :: r2 =>
    let fd := r2.takeWhile myDigit
    if !fd.isEmpty && matchSecs (r2.dropWhile myDigit) then some (ds ++ '.' :: fd)
    else if matchSecs rest then some ds else none
  | _ => if matchSecs rest then some ds else none

/-- `\d{1,3}` at a fixed position: greedy, backtracking from three digits
down to one. -/
def tryDurK (k : Nat) (cs : List Char) : Option (List Char) :=
  match takeExactDigits k cs with
  | some (ds, rest) => matchAfterDigits ds rest
  | none => none

def tryDurAt (cs : List Char) : Option (List Char) :=
  match tryDurK 3 cs with
  | some g => some g
  | none =>
    match tryDurK 2 cs with
    | some g => some g
    | none => tryDurK 1 cs

/-- `re.search`: leftmost position wins; returns group 1. -/
def durSearch : List Char → Option (List Char)
  | [] => none
  | c :: rest =>
    match tryDurAt (c :: rest) with
    | some g => some g
    | none => durSearch rest

/-- `float(m.group(1))` for a `digits[.digits]` group (value modelled in ℚ). -/
def decValue (cs : List Char) : Rat :=
  let ip := cs.takeWhile (fun c => !(c == '.'))
  match cs.dropWhile (fun c => !(c == '.')) with
  | [] => (digitsVal ip : Rat)
  | _ :: frac => (digitsVal ip : Rat) + (digitsVal frac : Rat) / ((10 : Rat) ^ frac.length)

/-- `duration = float(m.group(1)) if m else 0.0`. -/
def durationOf (g : Option (List Char)) : Rat :=
  match g with
  | none => 0
  | some ds => decValue ds

/-- `extract_meta` (lines 134–160): returns `(actor, movie, line, duration)`,
or an error when a required `.get_text` target is missing. -/
def extract_meta (m : Markup) :
    Except ExtractErr (List Char × List Char × List Char × Rat) :=
  let finish : List Char → List Char →
      Except ExtractErr (List Char × List Char × List Char × Rat) :=
    fun actor ch =>
      match m.whiteLink, m.highlightBoxText with
      | some movie, some quoteTxt =>
        let line := if ch = [] then quoteTxt else stripSpeaker ch quoteTxt
        Except.ok (actor, movie, line, durationOf (durSearch m.raw))
      | _, _ => Except.error ExtractErr.missingField
  match m.movieCastActor with
  | some cast =>
    match cast.actorLink with
    | some alink =>
      match cast.bText with
      | some ch => finish alink ch
      | none => Except.error ExtractErr.missingField
    | none => finish (m.pageActorLink.getD unknownActor) (m.highlightBoxB.getD [])
  | none => finish (m.pageActorLink.getD unknownActor) (m.highlightBoxB.getD [])

/-- C9: whenever the required fields are present (so extraction does not
fail on them), extraction succeeds regardless of the duration pattern; if no
duration pattern matches, the returned duration is exactly `0`; and if
neither the labelled cast bar nor any in-page actor link exists, the
returned actor is exactly the `"Unknown"` sentinel. -/
theorem extract_meta_fallbacks (m : Markup) (movie quoteTxt : List Char)
    (hmv : m.whiteLink = some movie) (hq : m.highlightBoxText = some quoteTxt)
    (hcast : ∀ cast, m.movieCastActor = some cast →
      ∀ alink, cast.actorLink = some alink → cast.bText ≠ none) :
    (∃ a l d, extract_meta m = Except.ok (a, movie, l, d)) ∧
    (durSearch m.raw = none →
      ∃ a l, extract_meta m = Except.ok (a, movie, l, 0)) ∧
    (m.movieCastActor = none → m.pageActorLink = none →
      ∃ l d, extract_meta m = Except.ok (unknownActor, movie, l, d)) := by
  cases hmca : m.movieCastActor with
  | some cast =>
    cases hal : cast.actorLink with
    | some alink =>
      cases hbt : cast.bText with
      | none => exact absurd hbt (hcast cast hmca alink hal)
      | some ch =>
        have hok : extract_meta m = Except.ok (alink, movie,
            if ch = [] then quoteTxt else stripSpeaker ch quoteTxt,
            durationOf (durSearch m.raw)) := by
          simp [extract_meta, hmca, hal, hbt, hmv, hq]
        refine ⟨⟨alink, _, _, hok⟩, ?_, ?_⟩
        · intro hdur
          rw [hdur] at hok
          exact ⟨alink, _, hok⟩
        · intro hnone
          exact Option.noConfusion hnone
    | none =>
      have hok : extract_meta m = Except.ok (m.pageActorLink.getD unknownActor,
          movie,
          if m.highlightBoxB.getD [] = [] then quoteTxt
          else stripSpeaker (m.highlightBoxB.getD []) quoteTxt,
          durationOf (durSearch m.raw)) := by
        simp [extract_meta, hmca, hal, hmv, hq]
      refine ⟨⟨m.pageActorLink.getD unknownActor, _, _, hok⟩, ?_, ?_⟩
      · intro hdur
        rw [hdur] at hok
        exact ⟨m.pageActorLink.getD unknownActor, _, hok⟩
      · intro hnone
        exact Option.noConfusion hnone
  | none =>
    have hok : extract_meta m = Except.ok (m.pageActorLink.getD unknownActor,
        movie,
        if m.highlightBoxB.getD [] = [] then quoteTxt
        else stripSpeaker (m.highlightBoxB.getD []) quoteTxt,
        durationOf (durSearch m.raw)) := by
      simp [extract_meta, hmca, hmv, hq]
    refine ⟨⟨m.pageActorLink.getD unknownActor, _, _, hok⟩, ?_, ?_⟩
    · intro hdur
      rw [hdur] at hok
      exact ⟨m.pageActorLink.getD unknownActor, _, hok⟩
    · intro _ hpal
      rw [hpal] at hok
      exact ⟨_, durationOf (durSearch m.raw), hok⟩

/-- C9 witness: a page with required fields present, no cast bar, no actor
link and no duration pattern extracts the `"Unknown"` actor and duration `0`. -/
theorem extract_meta_fallbacks_witness :
    ∃ a l, extract_meta ⟨none, none, none, some ['M'], some ['Q'], []⟩ =
      Except.ok (a, ['M'], l, (0 : Rat)) :=
  (extract_meta_fallbacks ⟨none, none, none, some ['M'], some ['Q'], []⟩
    ['M'] ['Q'] rfl rfl (fun _ h => by cases h)).2.1 rfl

/-! ### Clip acquisition orchestrator (`handle_clip`, lines 174–203, and
`run_batch`, lines 206–226)

A `TargetEnv` packages what the browser presents for one target: whether the
page's `div.highlight-box` appears within the wait, the abstracted markup,
whether the download controls become clickable, and the evolution of the
temporary download directory as seen by each one-second poll.  `handle_clip`
additionally returns the ordered trace of the externally visible calls it
performs, so temporal claims about call order can be stated. -/

inductive ClipError
  | extractionError
  | interactionError
  | downloadTimeout
deriving DecidableEq

inductive Event
  | navigate
  | extract
  | trigger
  | download (f : List Char)
  | alloc (i : Int)
  | move (src dst : List Char)
  | append (i : Int)
deriving DecidableEq

/-- `before = set(drv.tmp_download_dir.glob("*.wav"))`, taken strictly before
the click that triggers the download (poll index 0 is the snapshot instant). -/
def snapshotOf (e₀ : Nat → List (List Char)) : List (List Char) :=
  (e₀ 0).filter isWavName

structure TargetEnv where
  pageReady : Bool
  markup : Markup
  controlsOk : Bool
  tmpDirAt : Nat → List (List Char)

/-- One target (`handle_clip`): navigate and wait for content; extract; snapshot
the temp dir; clear overlays and click through the download dialog; wait for
the new `.wav`; then allocate `next_id()`, `mkdir` the download directory,
move the file to `Lines/{idx:02d}.wav`, and append the CSV row.  Failures
before the download leave every store untouched; the `Int` in the result is
the allocated id and the `Row` the appended ledger row. -/
def handle_clip (e : TargetEnv) (st : St) :
    Except ClipError (St × Int × Row) × List Event :=
  if e.pageReady = false then
    (Except.error ClipError.interactionError, [Event.navigate])
  else
    match extract_meta e.markup with
    | Except.error _ =>
      (Except.error ClipError.extractionError, [Event.navigate, Event.extract])
    | Except.ok (actor, movie, line, dur) =>
      if e.controlsOk = false then
        (Except.error ClipError.interactionError, [Event.navigate, Event.extract])
      else
        match wait_download e.tmpDirAt (snapshotOf e.tmpDirAt) with
        | (none, _) =>
          (Except.error ClipError.downloadTimeout,
           [Event.navigate, Event.extract, Event.trigger])
        | (some wav, _) =>
          let idx := next_id st
          let fname := wavName idx
          let dir' := ((st.dlDir.getD []).filter (fun f => decide (¬ f = fname))) ++ [fname]
          let row : Row := ⟨intRepr idx, actor, movie, line, dur⟩
          let st' : St := ⟨some ((st.ledger.getD []) ++ [row]), some dir'⟩
          (Except.ok (st', idx, row),
           [Event.navigate, Event.extract, Event.trigger, Event.download wav,
            Event.alloc idx, Event.move wav fname, Event.append idx])

/-- The batch loop (`run_batch`): `try: handle_clip(...) except: log and
continue`.  Returns the final store state and, per target in order, either
the appended row or the logged error. -/
def run_batch : List TargetEnv → St → St × List (Except ClipError Row)
  | [], st => (st, [])
  | e :: es, st =>
    match (handle_clip e st).1 with
    | Except.error err =>
      let p := run_batch es st
      (p.1, Except.error err :: p.2)
    | Except.ok (st', _, row) =>
      let p := run_batch es st'
      (p.1, Except.ok row :: p.2)

/-- The rows of the ledger file (empty when the file does not exist). -/
def ledgerRows (st : St) : List Row := st.ledger.getD []

/-- The row of a logged outcome, when the target succeeded. -/
def okRow : Except ClipError Row → Option Row
  | Except.ok row => some row
  | Except.error _ => none

/-- Inversion of a successful `handle_clip`: the id is `next_id` of the
*input* state, the row records that id, the ledger grows by exactly that row
at the end, the directory gains exactly `NN.wav`, and the event trace is the
fixed success sequence. -/
theorem handle_clip_ok {e : TargetEnv} {st st' : St} {i : Int} {row : Row}
    {evs : List Event}
    (h : handle_clip e st = (Except.ok (st', i, row), evs)) :
    i = next_id st ∧
    row.idField = intRepr i ∧
    st' = ⟨some (ledgerRows st ++ [row]),
           some (((st.dlDir.getD []).filter (fun f => decide (¬ f = wavName i))) ++
             [wavName i])⟩ ∧
    ∃ wav, evs = [Event.navigate, Event.extract, Event.trigger,
                  Event.download wav, Event.alloc i, Event.move wav (wavName i),
                  Event.append i] := by
  unfold handle_clip at h
  split at h
  · simp at h
  · split at h
    · simp at h
    · split at h
      · simp at h
      · split at h
        · simp at h
        · rename_i wav tEnd heqw
          simp only [Prod.mk.injEq, Except.ok.injEq] at h
          obtain ⟨⟨hst, hi, hrow⟩, hevs⟩ := h
          subst hi
          subst hrow
          subst hst
          subst hevs
          exact ⟨rfl, rfl, rfl, wav, rfl⟩

theorem handle_clip_ok_ledger {e : TargetEnv} {st st' : St} {i : Int}
    {row : Row} {evs : List Event}
    (h : handle_clip e st = (Except.ok (st', i, row), evs)) :
    ledgerRows st' = ledgerRows st ++ [row] := by
  obtain ⟨-, -, hst, -⟩ := handle_clip_ok h
  rw [hst]
  rfl

/-- C1: the batch loop never aborts: it produces exactly one logged outcome
per target, in batch order; the final ledger is the initial ledger (rows
already written are unchanged, in place) followed by exactly the successful
targets' rows, in their original batch order (a failed target contributes an
error to the log and nothing to the ledger). -/
theorem run_batch_isolation :
    ∀ (targets : List TargetEnv) (st : St),
      (run_batch targets st).2.length = targets.length ∧
      ledgerRows (run_batch targets st).1 =
        ledgerRows st ++ (run_batch targets st).2.filterMap okRow := by
  intro targets
  induction targets with
  | nil =>
    intro st
    exact ⟨rfl, by simp [run_batch]⟩
  | cons e es ih =>
    intro st
    rcases hp : handle_clip e st with ⟨r, evs⟩
    cases r with
    | error err =>
      obtain ⟨ihlen, ihrows⟩ := ih st
      constructor
      · simp [run_batch, hp, ihlen]
      · simp only [run_batch, hp, List.filterMap_cons, okRow, List.length_cons]
        exact ihrows
    | ok val =>
      obtain ⟨st', i, row⟩ := val
      obtain ⟨ihlen, ihrows⟩ := ih st'
      have hled : ledgerRows st' = ledgerRows st ++ [row] :=
        handle_clip_ok_ledger hp
      constructor
      · simp [run_batch, hp, ihlen]
      · simp only [run_batch, hp, List.filterMap_cons, okRow]
        rw [ihrows, hled, List.append_assoc]
        rfl

/-! ### Temporal order of the per-target calls (C4, C7) -/

def isAllocEv : Event → Bool
  | Event.alloc _ => true
  | _ => false

def isMoveEv : Event → Bool
  | Event.move _ _ => true
  | _ => false

def isAppendEv : Event → Bool
  | Event.append _ => true
  | _ => false

/-- `precedes p q evs` holds when some `p`-event occurs strictly before some
`q`-event in the trace. -/
def precedes (p q : Event → Bool) : List Event → Bool
  | [] => false
  | ev :: rest => (p ev && rest.any q) || precedes p q rest

/-- A fixed markup with the two required fields and nothing else. -/
def mTest : Markup := ⟨none, none, none, some ['M'], some ['Q'], []⟩

/-- A target on which every stage succeeds: the page is ready, the controls
are clickable, and a fresh `d.wav` appears in the temp dir at the first poll
after the snapshot. -/
def envGood : TargetEnv :=
  ⟨true, mTest, true, fun t => if t = 0 then [] else [['d', '.', 'w', 'a', 'v']]⟩

/-- A target whose download never materialises. -/
def envStuck : TargetEnv := ⟨true, mTest, true, fun _ => []⟩

/-- C4 counterexample: a target that reaches `AppendLedger` (its trace
contains the append event) on which the move into the final directory does
*not* precede the id allocation — `handle_clip` computes `next_id()` first
and then moves the file, since the file's destination name is derived from
the id. -/
theorem move_before_alloc_counterexample :
    (handle_clip envGood ⟨none, none⟩).2.any isAppendEv = true ∧
    precedes isMoveEv isAllocEv (handle_clip envGood ⟨none, none⟩).2 = false := by
  decide

/-- C4 amended: for every target that reaches `AppendLedger`, the id
allocation strictly precedes the move into the final directory, and the move
strictly precedes the ledger append. -/
theorem alloc_then_move_then_append :
    ∀ (e : TargetEnv) (st st' : St) (i : Int) (row : Row) (evs : List Event),
      handle_clip e st = (Except.ok (st', i, row), evs) →
      precedes isAllocEv isMoveEv evs = true ∧
      precedes isMoveEv isAppendEv evs = true := by
  intro e st st' i row evs h
  obtain ⟨-, -, -, wav, hevs⟩ := handle_clip_ok h
  subst hevs
  exact ⟨rfl, rfl⟩

/-- C4 witness: the successful concrete target allocates before moving and
moves before appending. -/
theorem alloc_then_move_then_append_witness :
    precedes isAllocEv isMoveEv (handle_clip envGood ⟨none, none⟩).2 = true ∧
    precedes isMoveEv isAppendEv (handle_clip envGood ⟨none, none⟩).2 = true :=
  alloc_then_move_then_append envGood ⟨none, none⟩ _ _ _ _ rfl

/-- C7: when the download wait times out, `handle_clip` surfaces
`downloadTimeout` to its caller (never swallows it), its trace contains no
allocation, no move and no append, and the batch loop leaves the state —
ledger included — exactly as it was while logging the error. -/
theorem download_timeout_atomic :
    ∀ (e : TargetEnv) (st : St) (a mv l : List Char) (d : Rat),
      e.pageReady = true →
      extract_meta e.markup = Except.ok (a, mv, l, d) →
      e.controlsOk = true →
      (wait_download e.tmpDirAt (snapshotOf e.tmpDirAt)).1 = none →
      handle_clip e st = (Except.error ClipError.downloadTimeout,
        [Event.navigate, Event.extract, Event.trigger]) ∧
      run_batch [e] st = (st, [Except.error ClipError.downloadTimeout]) := by
  intro e st a mv l d hpage hext hctl htime
  have h1 : ¬ (e.pageReady = false) := by rw [hpage]; simp
  have h3 : ¬ (e.controlsOk = false) := by rw [hctl]; simp
  rcases hwd : wait_download e.tmpDirAt (snapshotOf e.tmpDirAt) with ⟨o, t⟩
  rw [hwd] at htime
  simp only at htime
  subst htime
  have hclip : handle_clip e st = (Except.error ClipError.downloadTimeout,
      [Event.navigate, Event.extract, Event.trigger]) := by
    simp only [handle_clip, if_neg h1, hext, if_neg h3, hwd]
  exact ⟨hclip, by simp [run_batch, hclip]⟩

/-- C7 witness: a concrete stuck download yields the timeout error and an
untouched state. -/
theorem download_timeout_atomic_witness :
    handle_clip envStuck ⟨none, none⟩ = (Except.error ClipError.downloadTimeout,
      [Event.navigate, Event.extract, Event.trigger]) ∧
    run_batch [envStuck] ⟨none, none⟩ =
      (⟨none, none⟩, [Except.error ClipError.downloadTimeout]) :=
  download_timeout_atomic envStuck ⟨none, none⟩ unknownActor ['M'] ['Q'] 0
    rfl rfl rfl rfl

/-! ### Monotonic, collision-free ids (C3)

An acquisition trace alternates successful `handle_clip` runs with arbitrary
external interference, constrained only in that the id just allocated is
still visible in at least one store at the next allocation (the spec's
scenario — the ledger *or* the directory may independently lose the most
recent entry — is the special case where everything else survives too). -/

/-- The most recent id is still observable: some ledger row's id cell parses
to it, or its `NN.wav` file is still in the download directory. -/
def retainsId (i : Int) (st : St) : Prop :=
  (∃ rows, st.ledger = some rows ∧ ∃ r ∈ rows, pyIntChars? r.idField = some i) ∨
  (∃ fs, st.dlDir = some fs ∧ wavName i ∈ fs)

theorem retainsId_lt_next {i : Int} {st : St} (h : retainsId i st) :
    i < next_id st := by
  apply lt_next_id_of_observed
  unfold observedIds
  rcases h with ⟨rows, hl, r, hr, hp⟩ | ⟨fs, hd, hf⟩
  · rw [hl]
    apply List.mem_append_left
    exact List.mem_filterMap.mpr ⟨r, hr, hp⟩
  · rw [hd]
    apply List.mem_append_right
    exact List.mem_filterMap.mpr
      ⟨wavName i, List.mem_filter.mpr ⟨hf, isWavName_wavName i⟩, roundtrip_wav i⟩

/-- Sequences of successful acquisitions with interference between them. -/
inductive AcqTrace : St → List Int → St → Prop
  | nil (st : St) : AcqTrace st [] st
  | step {e : TargetEnv} {st st₁ st₂ st₃ : St} {i : Int} {row : Row}
      {evs : List Event} {ids : List Int} :
      handle_clip e st = (Except.ok (st₁, i, row), evs) →
      retainsId i st₂ →
      AcqTrace st₂ ids st₃ →
      AcqTrace st (i :: ids) st₃

theorem acqTrace_chain' {st st' : St} {ids : List Int}
    (h : AcqTrace st ids st') : ids.Chain' (· < ·) := by
  induction h with
  | nil => exact List.chain'_nil
  | step h1 h2 h3 ih =>
    rw [List.chain'_cons']
    refine ⟨?_, ih⟩
    intro b hb
    cases h3 with
    | nil => simp at hb
    | step h1' h2' h3' =>
      simp only [List.head?_cons, Option.mem_def, Option.some.injEq] at hb
      subst hb
      rw [(handle_clip_ok h1').1]
      exact retainsId_lt_next h2

/-- C3: along any acquisition trace the allocated ids are strictly
increasing pairwise — so no two acquisitions ever receive the same id —
even though between acquisitions either store may independently lose the
most recent entry (at least one of the two retains it). -/
theorem acquisition_ids_strictly_increasing :
    ∀ (st : St) (ids : List Int) (st' : St),
      AcqTrace st ids st' → ids.Pairwise (· < ·) :=
  fun _ _ _ h => List.chain'_iff_pairwise.mp (acqTrace_chain' h)

def rowA : Row := ⟨['1'], unknownActor, ['M'], ['Q'], 0⟩
def rowB : Row := ⟨['2'], unknownActor, ['M'], ['Q'], 0⟩
def wavA : List Char := ['0', '1', '.', 'w', 'a', 'v']
def wavB : List Char := ['0', '2', '.', 'w', 'a', 'v']
def dlTmp : List Char := ['d', '.', 'w', 'a', 'v']
def stA : St := ⟨some [rowA], some [wavA]⟩
def stB : St := ⟨some [rowA, rowB], some [wavA, wavB]⟩
def evsA : List Event :=
  [Event.navigate, Event.extract, Event.trigger, Event.download dlTmp,
   Event.alloc 1, Event.move dlTmp wavA, Event.append 1]
def evsB : List Event :=
  [Event.navigate, Event.extract, Event.trigger, Event.download dlTmp,
   Event.alloc 2, Event.move dlTmp wavB, Event.append 2]

theorem handle_clip_stepA :
    handle_clip envGood ⟨none, none⟩ = (Except.ok (stA, 1, rowA), evsA) := rfl

theorem handle_clip_stepB :
    handle_clip envGood stA = (Except.ok (stB, 2, rowB), evsB) := rfl

/-- C3 witness: two consecutive successful acquisitions from the empty state
allocate `1` then `2`, pairwise strictly increasing. -/
theorem acquisition_ids_witness :
    List.Pairwise (fun a b : Int => a < b) [1, 2] :=
  acquisition_ids_strictly_increasing ⟨none, none⟩ [1, 2] stB
    (@AcqTrace.step envGood ⟨none, none⟩ stA stA stB 1 rowA evsA [2]
      handle_clip_stepA
      (Or.inr ⟨[wavA], rfl, by decide⟩)
      (@AcqTrace.step envGood stA stB stB stB 2 rowB evsB []
        handle_clip_stepB
        (Or.inr ⟨[wavA, wavB], rfl, by decide⟩)
        (AcqTrace.nil stB)))

/-- C10: for every positive id, the filename the orchestrator writes
(`f"{i:02d}.wav"`) is matched by the allocator's `*.wav` glob, its stem
parses back to exactly that id, and hence any store whose directory contains
that file allocates strictly beyond it. -/
theorem orchestrator_filename_roundtrip :
    ∀ i : Int, 1 ≤ i →
      isWavName (wavName i) = true ∧
      pyIntChars? (stemOfWav (wavName i)) = some i ∧
      ∀ (st : St) (fs : List (List Char)), st.dlDir = some fs →
        wavName i ∈ fs → i < next_id st := by
  intro i _
  refine ⟨isWavName_wavName i, roundtrip_wav i, ?_⟩
  intro st fs hd hf
  exact retainsId_lt_next (Or.inr ⟨fs, hd, hf⟩)

/-- C10 witness: `03.wav` parses back to id `3`. -/
theorem orchestrator_filename_roundtrip_witness :
    pyIntChars? (stemOfWav (wavName 3)) = some 3 :=
  (orchestrator_filename_roundtrip 3 (by decide)).2.1

/-! ### Ledger writer and reader at the file level (C5)

`append_csv` (lines 119–131) opens `data.csv` for append, writes the header
once if the file did not exist, and writes one row through `csv.DictWriter`
with `quoting=csv.QUOTE_MINIMAL`, `escapechar="\\"` and the default
`doublequote=True`.  Per CPython's `_csv` writer: a delimiter or
line-terminator character forces quoting; a quote character is doubled and
forces quoting; the escape character is emitted twice and does *not* force
quoting.  Reading the ledger back happens through the default dialect
(`pandas.read_csv` and `csv.DictReader` in `_safe_max_id_from_csv`), whose
`escapechar` is `None`: a quoted cell undoubles quotes, an unquoted cell runs
to the next delimiter or end of line, and backslashes are ordinary text. -/

/-- Emitted characters of one cell plus its needs-quoting flag, as the
writer computes them. -/
def escapeField : List Char → List Char × Bool
  | [] => ([], false)
  | c :: r =>
    let p := escapeField r
    if c = ',' ∨ c = '\r' ∨ c = '\n' then (c :: p.1, true)
    else if c = '"' then ('"' :: '"' :: p.1, true)
    else if c = '\\' then ('\\' :: '\\' :: p.1, p.2)
    else (c :: p.1, p.2)

/-- One serialised cell (`QUOTE_MINIMAL`). -/
def writeField (f : List Char) : List Char :=
  let p := escapeField f
  if p.2 then '"' :: p.1 ++ ['"'] else p.1

def joinWriteFields : List (List Char) → List Char
  | [] => []
  | [f] => writeField f
  | f :: fs => writeField f ++ ',' :: joinWriteFields fs

/-- The writer's default line terminator `\r\n` (the file is opened with
`newline=""`). -/
def crlf : List Char := ['\r', '\n']

/-- One serialised record. -/
def writeRow (fields : List (List Char)) : List Char :=
  joinWriteFields fields ++ crlf

/-- `["id", "Actor Name", "Movie Name", "Line", "Duration"]`. -/
def headerFields : List (List Char) :=
  [['i', 'd'],
   ['A', 'c', 't', 'o', 'r', ' ', 'N', 'a', 'm', 'e'],
   ['M', 'o', 'v', 'i', 'e', ' ', 'N', 'a', 'm', 'e'],
   ['L', 'i', 'n', 'e'],
   ['D', 'u', 'r', 'a', 't', 'i', 'o', 'n']]

/-- `append_csv`: write the header first when the file does not yet exist,
then exactly one data row at the end. -/
def append_csv (file : Option (List Char)) (fields : List (List Char)) : List Char :=
  match file with
  | none => writeRow headerFields ++ writeRow fields
  | some txt => txt ++ writeRow fields

/-- Default-dialect reader, unquoted cell: runs to a delimiter or end of
line; quotes and backslashes are ordinary characters. -/
def parseUnquoted : List Char → List Char × List Char
  | [] => ([], [])
  | c :: r =>
    if c = ',' ∨ c = '\r' ∨ c = '\n' then ([], c :: r)
    else
      let p := parseUnquoted r
      (c :: p.1, p.2)

/-- Default-dialect reader, inside a quoted cell: a doubled quote is a
literal quote; after the closing quote any remaining text before the
delimiter is taken literally (non-strict mode). -/
def parseQuoted : List Char → List Char × List Char
  | [] => ([], [])
  | c :: r =>
    if c = '"' then
      match r with
      | [] => ([], [])
      | c2 :: r2 =>
        if c2 = '"' then
          let p := parseQuoted r2
          ('"' :: p.1, p.2)
        else parseUnquoted r
    else
      let p := parseQuoted r
      (c :: p.1, p.2)

/-- One cell: a leading quote opens a quoted cell, anything else starts an
unquoted cell. -/
def parseField : List Char → List Char × List Char
  | [] => ([], [])
  | c :: r => if c = '"' then parseQuoted r else parseUnquoted (c :: r)

/-- All cells of one record (fuel-based so that it evaluates by kernel
reduction; the fuel is the input length plus one). -/
def parseFieldsAux : Nat → List Char → List (List Char)
  | 0, _ => []
  | fuel + 1, cs =>
    let p := parseField cs
    match p.2 with
    | ',' :: r => p.1 :: parseFieldsAux fuel r
    | _ => [p.1]

def parseFields (cs : List Char) : List (List Char) :=
  parseFieldsAux (cs.length + 1) cs

/-- The five cells of a record whose `Line` cell holds `a\b` (one
backslash). -/
def c5Fields : List (List Char) :=
  [['7'], ['A'], ['M'], ['a', '\\', 'b'], ['0']]

/-- What the default-dialect reader returns for that record: the backslash
comes back doubled. -/
def c5ReadBack : List (List Char) :=
  [['7'], ['A'], ['M'], ['a', '\\', '\\', 'b'], ['0']]

/-- C5 (code bug): `append_csv` writes the record with `escapechar="\\"`, so
a cell containing a backslash is stored with the backslash doubled and left
unquoted; the repository's own readers (default dialect, no escape
character) hand the doubled backslash back, so
`read(append(record)) ≠ record` for any record whose text contains a
backslash — against the spec's round-trip invariant. -/
theorem append_csv_roundtrip_failure :
    append_csv (some []) c5Fields = writeRow c5Fields ∧
    parseFields (writeRow c5Fields) = c5ReadBack ∧
    c5ReadBack ≠ c5Fields := by
  refine ⟨rfl, by decide, by decide⟩

/-! ### Round trip for escape-free cells

The writer/reader pair does round-trip any record whose cells avoid the
escape character, which isolates the C5 failure to `escapechar="\\"`. -/

/-- The text after a serialised cell: end of record, a delimiter, or the
`\r` of the line terminator. -/
def isSepHead (rest : List Char) : Prop :=
  rest = [] ∨ (∃ r, rest = ',' :: r) ∨ (∃ r, rest = '\r' :: r)

theorem sep_not_quote {c : Char} (h : c = ',' ∨ c = '\r' ∨ c = '\n') :
    ¬ c = '"' := by
  rcases h with h | h | h <;> (subst h; decide)

theorem parseUnquoted_cons_stop {c : Char}
    (h : c = ',' ∨ c = '\r' ∨ c = '\n') (r : List Char) :
    parseUnquoted (c :: r) = ([], c :: r) := by
  simp only [parseUnquoted]
  rw [if_pos h]

theorem parseUnquoted_cons_go {c : Char}
    (h : ¬(c = ',' ∨ c = '\r' ∨ c = '\n')) (r : List Char) :
    parseUnquoted (c :: r) = (c :: (parseUnquoted r).1, (parseUnquoted r).2) := by
  simp only [parseUnquoted]
  rw [if_neg h]

theorem parseQuoted_cons_ne {c : Char} (hq : ¬ c = '"') (r : List Char) :
    parseQuoted (c :: r) = (c :: (parseQuoted r).1, (parseQuoted r).2) := by
  cases r with
  | nil =>
    simp only [parseQuoted]
    rw [if_neg hq]
  | cons c2 r2 =>
    simp only [parseQuoted]
    rw [if_neg hq]

theorem escapeField_cons_sep {c : Char}
    (h : c = ',' ∨ c = '\r' ∨ c = '\n') (r : List Char) :
    escapeField (c :: r) = (c :: (escapeField r).1, true) := by
  simp only [escapeField]
  rw [if_pos h]

theorem escapeField_cons_plain {c : Char}
    (hd : ¬(c = ',' ∨ c = '\r' ∨ c = '\n')) (hq : ¬ c = '"')
    (hb : ¬ c = '\\') (r : List Char) :
    escapeField (c :: r) = (c :: (escapeField r).1, (escapeField r).2) := by
  simp only [escapeField]
  rw [if_neg hd, if_neg hq, if_neg hb]

theorem parseUnquoted_pass :
    ∀ (f rest : List Char), (∀ c ∈ f, ¬(c = ',' ∨ c = '\r' ∨ c = '\n')) →
      isSepHead rest → parseUnquoted (f ++ rest) = (f, rest) := by
  intro f
  induction f with
  | nil =>
    intro rest _ hsep
    rcases hsep with rfl | ⟨r, rfl⟩ | ⟨r, rfl⟩ <;> rfl
  | cons c f ih =>
    intro rest hno hsep
    have hc := hno c (List.mem_cons_self c f)
    rw [List.cons_append, parseUnquoted_cons_go hc,
        ih rest (fun c' h' => hno c' (List.mem_cons_of_mem c h')) hsep]

theorem parseQuoted_pass :
    ∀ (f rest : List Char), (∀ c ∈ f, ¬ c = '\\') → isSepHead rest →
      parseQuoted ((escapeField f).1 ++ '"' :: rest) = (f, rest) := by
  intro f
  induction f with
  | nil =>
    intro rest _ hsep
    rcases hsep with rfl | ⟨r, rfl⟩ | ⟨r, rfl⟩ <;> rfl
  | cons c f ih =>
    intro rest hbs hsep
    have hbc : ¬ c = '\\' := hbs c (List.mem_cons_self c f)
    have ihr := ih rest (fun c' h' => hbs c' (List.mem_cons_of_mem c h')) hsep
    by_cases hd : c = ',' ∨ c = '\r' ∨ c = '\n'
    · have hq : ¬ c = '"' := sep_not_quote hd
      rw [escapeField_cons_sep hd]
      rw [show ((c :: (escapeField f).1, true) : List Char × Bool).1 ++ '"' :: rest =
            c :: ((escapeField f).1 ++ '"' :: rest) from rfl]
      rw [parseQuoted_cons_ne hq, ihr]
    · by_cases hq : c = '"'
      · subst hq
        rw [show escapeField ('"' :: f) =
              ('"' :: '"' :: (escapeField f).1, true) from rfl]
        show parseQuoted ('"' :: ('"' :: ((escapeField f).1 ++ '"' :: rest))) =
          ('"' :: f, rest)
        show ('"' :: (parseQuoted ((escapeField f).1 ++ '"' :: rest)).1,
              (parseQuoted ((escapeField f).1 ++ '"' :: rest)).2) = ('"' :: f, rest)
        rw [ihr]
      · rw [escapeField_cons_plain hd hq hbc]
        rw [show ((c :: (escapeField f).1, (escapeField f).2) :
              List Char × Bool).1 ++ '"' :: rest =
              c :: ((escapeField f).1 ++ '"' :: rest) from rfl]
        rw [parseQuoted_cons_ne hq, ihr]

theorem escapeField_false_inv :
    ∀ f : List Char, (∀ c ∈ f, ¬ c = '\\') → (escapeField f).2 = false →
      (escapeField f).1 = f ∧
      ∀ c ∈ f, ¬(c = ',' ∨ c = '\r' ∨ c = '\n') ∧ ¬ c = '"' := by
  intro f
  induction f with
  | nil => intro _ _; exact ⟨rfl, by intro c hc; cases hc⟩
  | cons c f ih =>
    intro hbs hfl
    have hbc : ¬ c = '\\' := hbs c (List.mem_cons_self c f)
    by_cases hd : c = ',' ∨ c = '\r' ∨ c = '\n'
    · exfalso
      rw [escapeField_cons_sep hd] at hfl
      exact Bool.true_eq_false.mp hfl
    · by_cases hq : c = '"'
      · exfalso
        subst hq
        rw [show escapeField ('"' :: f) =
              ('"' :: '"' :: (escapeField f).1, true) from rfl] at hfl
        exact Bool.true_eq_false.mp hfl
      · rw [escapeField_cons_plain hd hq hbc] at hfl
        obtain ⟨h1, h2⟩ := ih (fun c' h' => hbs c' (List.mem_cons_of_mem c h')) hfl
        refine ⟨?_, ?_⟩
        · rw [escapeField_cons_plain hd hq hbc]
          show c :: (escapeField f).1 = c :: f
          rw [h1]
        · intro c' hc'
          rcases List.mem_cons.mp hc' with h | h
          · rw [h]; exact ⟨hd, hq⟩
          · exact h2 c' h

theorem parseField_writeField :
    ∀ (f rest : List Char), (∀ c ∈ f, ¬ c = '\\') → isSepHead rest →
      parseField (writeField f ++ rest) = (f, rest) := by
  intro f rest hbs hsep
  by_cases hfl : (escapeField f).2 = true
  · have hw : writeField f = '"' :: (escapeField f).1 ++ ['"'] := by
      simp only [writeField]
      rw [if_pos hfl]
    rw [hw]
    rw [show ('"' :: (escapeField f).1 ++ ['"']) ++ rest =
          '"' :: ((escapeField f).1 ++ '"' :: rest) by simp]
    show parseQuoted ((escapeField f).1 ++ '"' :: rest) = (f, rest)
    exact parseQuoted_pass f rest hbs hsep
  · have hfl' : (escapeField f).2 = false := by
      cases h : (escapeField f).2
      · rfl
      · exact absurd h hfl
    obtain ⟨h1, h2⟩ := escapeField_false_inv f hbs hfl'
    have hw : writeField f = f := by
      simp only [writeField]
      rw [if_neg hfl]
      exact h1
    rw [hw]
    cases f with
    | nil => rcases hsep with rfl | ⟨r, rfl⟩ | ⟨r, rfl⟩ <;> rfl
    | cons c fr =>
      have hcq : ¬ c = '"' := (h2 c (List.mem_cons_self c fr)).2
      rw [List.cons_append]
      show parseField (c :: (fr ++ rest)) = (c :: fr, rest)
      rw [show parseField (c :: (fr ++ rest)) =
            if c = '"' then parseQuoted (fr ++ rest)
            else parseUnquoted (c :: (fr ++ rest)) from rfl]
      rw [if_neg hcq, ← List.cons_append]
      exact parseUnquoted_pass (c :: fr) rest (fun c' h' => (h2 c' h').1) hsep

theorem parseFieldsAux_comma {fuel : Nat} {cs v r : List Char}
    (h : parseField cs = (v, ',' :: r)) :
    parseFieldsAux (fuel + 1) cs = v :: parseFieldsAux fuel r := by
  show (match (parseField cs).2 with
        | ',' :: r' => (parseField cs).1 :: parseFieldsAux fuel r'
        | _ => [(parseField cs).1]) = v :: parseFieldsAux fuel r
  rw [h]
  rfl

theorem parseFieldsAux_stop {fuel : Nat} {cs v r : List Char}
    (h : parseField cs = (v, '\r' :: r)) :
    parseFieldsAux (fuel + 1) cs = [v] := by
  show (match (parseField cs).2 with
        | ',' :: r' => (parseField cs).1 :: parseFieldsAux fuel r'
        | _ => [(parseField cs).1]) = [v]
  rw [h]
  rfl

theorem parseRow_roundtrip_aux :
    ∀ (fields : List (List Char)) (fuel : Nat), fields ≠ [] →
      (∀ f ∈ fields, ∀ c ∈ f, ¬ c = '\\') →
      (joinWriteFields fields ++ crlf).length < fuel →
      parseFieldsAux fuel (joinWriteFields fields ++ crlf) = fields := by
  intro fields
  induction fields with
  | nil => intro fuel hne _ _; exact absurd rfl hne
  | cons f fs ih =>
    intro fuel hne hbs hlen
    cases fs with
    | nil =>
      cases fuel with
      | zero => exact absurd hlen (Nat.not_lt_zero _)
      | succ fuel' =>
        have hpf : parseField (writeField f ++ crlf) = (f, crlf) :=
          parseField_writeField f crlf (hbs f (by simp))
            (Or.inr (Or.inr ⟨['\n'], rfl⟩))
        show parseFieldsAux (fuel' + 1) (joinWriteFields [f] ++ crlf) = [f]
        have hj : joinWriteFields [f] = writeField f := rfl
        rw [hj]
        exact parseFieldsAux_stop hpf
    | cons f2 fs2 =>
      cases fuel with
      | zero => exact absurd hlen (Nat.not_lt_zero _)
      | succ fuel' =>
        have hbsf : ∀ c ∈ f, ¬ c = '\\' := hbs f (by simp)
        have hj : joinWriteFields (f :: f2 :: fs2) =
            writeField f ++ ',' :: joinWriteFields (f2 :: fs2) := rfl
        rw [hj, List.append_assoc, List.cons_append]
        have hpf : parseField (writeField f ++
            ',' :: (joinWriteFields (f2 :: fs2) ++ crlf)) =
            (f, ',' :: (joinWriteFields (f2 :: fs2) ++ crlf)) :=
          parseField_writeField f _ hbsf (Or.inr (Or.inl ⟨_, rfl⟩))
        rw [parseFieldsAux_comma hpf]
        congr 1
        apply ih fuel' (by simp)
          (fun f' h' => hbs f' (List.mem_cons_of_mem f h'))
        have hlen' : (writeField f ++
            (',' :: (joinWriteFields (f2 :: fs2) ++ crlf))).length < fuel' + 1 := by
          rw [hj, List.append_assoc, List.cons_append] at hlen
          exact hlen
        rw [List.length_append, List.length_cons] at hlen'
        omega

/-- Every record whose cells avoid the escape character round-trips through
the writer and the default-dialect reader. -/
theorem csv_roundtrip_no_escape :
    ∀ fields : List (List Char), fields ≠ [] →
      (∀ f ∈ fields, ∀ c ∈ f, ¬ c = '\\') →
      parseFields (writeRow fields) = fields := by
  intro fields hne hbs
  show parseFieldsAux ((writeRow fields).length + 1) (joinWriteFields fields ++ crlf) = fields
  exact parseRow_roundtrip_aux fields _ hne hbs (Nat.lt_succ_self _)

end MovieDataset
